import Mathlib

/-!
Shallow embedding of the tetris_tui core (src/game/shape.rs and
src/game/tetris.rs) and verification of its specification claims.

Rust `HashSet<Cell>` is modelled as `Finset Cell`, `Vec<Piece>` as
`List Piece`, `i32` as `ℤ` (the program's values stay far from the i32
range), and the in-place mutators of `TetrisBoard` as functions
`TetrisBoard → TetrisBoard`. The random piece drawn inside `tick` (and at
construction) is always `Piece::new(shape)` for a uniformly drawn shape tag,
so randomness is modelled by passing the drawn `Shape` as an argument.
-/

set_option autoImplicit false

namespace TetrisTui

/-- The shape tag enumeration from shape.rs. -/
inductive Shape where
  | I | O | T | J | L | S | Z
  deriving DecidableEq, Repr

instance : Fintype Shape :=
  ⟨⟨[Shape.I, Shape.O, Shape.T, Shape.J, Shape.L, Shape.S, Shape.Z], by decide⟩,
    fun s => by cases s <;> decide⟩

/-- `Cell(i32, i32)`: an integer (column, row) pair. -/
abbrev Cell := ℤ × ℤ

/-- Cell addition, `impl Add for Cell`. -/
def cellAdd (a b : Cell) : Cell := (a.1 + b.1, a.2 + b.2)

/-- `Piece { shape, positions: HashSet<Cell>, pivot }` from shape.rs. -/
structure Piece where
  shape : Shape
  positions : Finset Cell
  pivot : Cell
  deriving DecidableEq

/-- `Piece::new_piece`: builds a piece from a cell array and a pivot. -/
def Piece.new_piece (s : Shape) (cells : List Cell) (p : Cell) : Piece :=
  ⟨s, cells.toFinset, p⟩

/-- `Piece::new`: the template table of the seven tetromino shapes. -/
def Piece.new : Shape → Piece
  | Shape.I => Piece.new_piece Shape.I [(0, 0), (1, 0), (2, 0), (3, 0)] (1, 0)
  | Shape.O => Piece.new_piece Shape.O [(0, 0), (1, 0), (0, 1), (1, 1)] (0, 0)
  | Shape.T => Piece.new_piece Shape.T [(0, 0), (1, 0), (2, 0), (1, 1)] (1, 0)
  | Shape.J => Piece.new_piece Shape.J [(0, 0), (0, 1), (0, 2), (-1, 2)] (0, 1)
  | Shape.L => Piece.new_piece Shape.L [(0, 0), (0, 1), (0, 2), (1, 2)] (0, 1)
  | Shape.S => Piece.new_piece Shape.S [(0, 0), (1, 0), (0, 1), (-1, 1)] (0, 0)
  | Shape.Z => Piece.new_piece Shape.Z [(0, 0), (-1, 0), (0, 1), (1, 1)] (0, 0)

/-- `impl Add<Cell> for &Piece`: translate every cell and the pivot. -/
def Piece.translate (p : Piece) (rhs : Cell) : Piece :=
  ⟨p.shape, p.positions.image (fun pos => cellAdd pos rhs), cellAdd p.pivot rhs⟩

/-- `Piece::rotate`: maps each cell `(x, y)` to `(a + b - y, b - a + x)`
where `(a, b)` is the pivot; shape and pivot are kept. -/
def Piece.rotate (p : Piece) : Piece :=
  ⟨p.shape,
    p.positions.image (fun c => (p.pivot.1 + p.pivot.2 - c.2, p.pivot.2 - p.pivot.1 + c.1)),
    p.pivot⟩

/-- `Piece::remove_cell(y)`: drop every cell in row `y`, then move every
cell with row `< y` down one row (row `+ 1`). -/
def Piece.remove_cell (p : Piece) (y : ℤ) : Piece :=
  ⟨p.shape,
    (p.positions.filter (fun pos => pos.2 ≠ y)).image
      (fun c => if c.2 ≥ y then c else (c.1, c.2 + 1)),
    p.pivot⟩

/-- `Piece::has_position`. -/
def Piece.has_position (p : Piece) (c : Cell) : Bool :=
  decide (c ∈ p.positions)

/-- `Piece::collides_with`: the two cell sets intersect. -/
def Piece.collides_with (p other : Piece) : Bool :=
  decide (0 < (p.positions ∩ other.positions).card)

/-- `Direction` from tetris.rs. -/
inductive Direction where
  | Left | Right
  deriving DecidableEq, Repr

/-- `TetrisBoard` from tetris.rs. -/
structure TetrisBoard where
  width : ℤ
  height : ℤ
  current_piece : Piece
  landed_pieces : List Piece
  alive : Bool
  deriving DecidableEq

/-- The spawn expression `&Piece::random_piece() + Cell((width - 1) / 2, 0)`
with the random draw replaced by its shape argument; Rust `i32` division
truncates toward zero, which is `Int.div`. -/
def spawn_piece (s : Shape) (width : ℤ) : Piece :=
  (Piece.new s).translate (Int.tdiv (width - 1) 2, 0)

/-- `TetrisBoard::new`. -/
def TetrisBoard.new (s : Shape) (width height : ℤ) : TetrisBoard :=
  ⟨width, height, spawn_piece s width, [], true⟩

/-- `TetrisBoard::board_size`. -/
def TetrisBoard.board_size (b : TetrisBoard) : ℤ × ℤ :=
  (b.width, b.height)

/-- `TetrisBoard::is_out_of_bounds`: some cell of the piece has column
outside `[0, width)` or row outside `[0, height)`. -/
def TetrisBoard.is_out_of_bounds (b : TetrisBoard) (p : Piece) : Bool :=
  !decide (∀ c ∈ p.positions, 0 ≤ c.1 ∧ c.1 < b.width ∧ 0 ≤ c.2 ∧ c.2 < b.height)

/-- `TetrisBoard::is_colliding`: some landed piece shares a cell with `p`. -/
def TetrisBoard.is_colliding (b : TetrisBoard) (p : Piece) : Bool :=
  b.landed_pieces.any (fun q => q.collides_with p)

/-- The set of all cells of a list of pieces. -/
def cells_of (l : List Piece) : Finset Cell :=
  l.foldr (fun p acc => p.positions ∪ acc) ∅

/-- The deduplicated set of all landed cells (the `flat_map` + `HashSet`
collection inside `is_line_full`, taken over all rows). -/
def TetrisBoard.landed_cells (b : TetrisBoard) : Finset Cell :=
  cells_of b.landed_pieces

/-- `TetrisBoard::is_line_full(y)`: the number of distinct landed cells in
row `y` equals `width`. -/
def TetrisBoard.is_line_full (b : TetrisBoard) (y : ℤ) : Bool :=
  decide (((b.landed_cells.filter (fun c => c.2 = y)).card : ℤ) = b.width)

/-- `TetrisBoard::remove_line(y)`: `remove_cell(y)` on every landed piece. -/
def TetrisBoard.remove_line (b : TetrisBoard) (y : ℤ) : TetrisBoard :=
  { b with landed_pieces := b.landed_pieces.map (fun p => p.remove_cell y) }

/-- The row list `0..height` of the Rust `for` loop (empty when `height ≤ 0`). -/
def int_range (n : ℤ) : List ℤ :=
  (List.range n.toNat).map Int.ofNat

/-- One iteration of the `remove_full_lines` loop body. -/
def TetrisBoard.clear_step (bd : TetrisBoard) (y : ℤ) : TetrisBoard :=
  if bd.is_line_full y then bd.remove_line y else bd

/-- `TetrisBoard::remove_full_lines`: scan rows `0..height` in increasing
order, clearing each row found full at scan time. -/
def TetrisBoard.remove_full_lines (b : TetrisBoard) : TetrisBoard :=
  (int_range b.height).foldl TetrisBoard.clear_step b

/-- `TetrisBoard::tick` with the random draw passed in as `s`. -/
def TetrisBoard.tick (b : TetrisBoard) (s : Shape) : TetrisBoard :=
  if !b.alive then b
  else
    let advanced := b.current_piece.translate (0, 1)
    if b.is_out_of_bounds advanced || b.is_colliding advanced then
      let b2 :=
        TetrisBoard.remove_full_lines
          { b with
            current_piece := spawn_piece s b.width,
            landed_pieces := b.landed_pieces ++ [b.current_piece] }
      if b2.is_colliding b2.current_piece then { b2 with alive := false } else b2
    else { b with current_piece := advanced }

/-- `TetrisBoard::shift`. -/
def TetrisBoard.shift (b : TetrisBoard) (d : Direction) : TetrisBoard :=
  if !b.alive then b
  else
    let shifted := b.current_piece.translate
      (match d with
        | Direction.Left => ((-1 : ℤ), (0 : ℤ))
        | Direction.Right => ((1 : ℤ), (0 : ℤ)))
    if !b.is_out_of_bounds shifted && !b.is_colliding shifted then
      { b with current_piece := shifted }
    else b

/-- `TetrisBoard::rotate`. -/
def TetrisBoard.rotate (b : TetrisBoard) : TetrisBoard :=
  if !b.alive then b
  else
    let rotated := b.current_piece.rotate
    if !b.is_out_of_bounds rotated && !b.is_colliding rotated then
      { b with current_piece := rotated }
    else b

/-- `TetrisBoard::get`. -/
def TetrisBoard.get (b : TetrisBoard) (cell : Cell) : Option Shape :=
  if b.current_piece.has_position cell then some b.current_piece.shape
  else (b.landed_pieces.find? (fun p => p.has_position cell)).map Piece.shape

/-- A mutating command of the `Tetris` trait; `tick` carries the shape the
random generator produced during that call. -/
inductive Cmd where
  | tick (s : Shape)
  | shift (d : Direction)
  | rot
  deriving DecidableEq, Repr

/-- Apply one command. -/
def TetrisBoard.step (b : TetrisBoard) : Cmd → TetrisBoard
  | Cmd.tick s => b.tick s
  | Cmd.shift d => b.shift d
  | Cmd.rot => b.rotate

/-- Apply a sequence of commands, left to right. -/
def TetrisBoard.run (b : TetrisBoard) : List Cmd → TetrisBoard
  | [] => b
  | c :: cs => (b.step c).run cs

/-- Every cell of `p` has column in `[0, w)` and row in `[0, h)`; this is
the property `is_out_of_bounds` negates. -/
@[reducible] def in_bounds_piece (w h : ℤ) (p : Piece) : Prop :=
  ∀ c ∈ p.positions, 0 ≤ c.1 ∧ c.1 < w ∧ 0 ≤ c.2 ∧ c.2 < h

/-- Every freshly spawned piece fits inside a `w × h` board (true for the
default 10 × 20 board; false for boards too narrow or too short for some
template). -/
@[reducible] def spawn_fits (w h : ℤ) : Prop :=
  ∀ s : Shape, in_bounds_piece w h (spawn_piece s w)

/-- The rows `0 ≤ y < height` that are full before any clearing starts. -/
def full_rows (b : TetrisBoard) : List ℤ :=
  (int_range b.height).filter (fun y => b.is_line_full y)

/-- How many rows of `ys` lie strictly below row `r` (larger row index). -/
def count_gt (ys : List ℤ) (r : ℤ) : ℕ :=
  (ys.filter (fun y => r < y)).length

/-- Where a surviving landed cell ends up after the rows `ys` are cleared:
its row grows by one for each cleared row strictly greater than it. -/
def shift_cell (ys : List ℤ) (c : Cell) : Cell :=
  (c.1, c.2 + count_gt ys c.2)

/-- `remove_cell` applied for each row of `ys` in order. -/
def clear_rows_piece (ys : List ℤ) (p : Piece) : Piece :=
  ys.foldl Piece.remove_cell p

/-- The number of `tick` commands in a command sequence. -/
def tick_count (cs : List Cmd) : ℕ :=
  (cs.filter (fun c => match c with | Cmd.tick _ => true | _ => false)).length

/-- The board obtained inside a blocked `tick`, after the old current piece
is appended to `landed_pieces`, the spawn is installed as the new current
piece and `remove_full_lines` has run. -/
def landed_board (b : TetrisBoard) (s : Shape) : TetrisBoard :=
  TetrisBoard.remove_full_lines
    { b with
      current_piece := spawn_piece s b.width,
      landed_pieces := b.landed_pieces ++ [b.current_piece] }

/-- Landed piece used by the line-clear counterexample: an L-tromino
occupying `(0,0)`, `(0,1)`, `(1,1)` on a 2-wide board, so row 1 is full
and one cell sits directly above it. -/
def cexPiece : Piece :=
  ⟨Shape.O, ({((0 : ℤ), (0 : ℤ)), ((0 : ℤ), (1 : ℤ)), ((1 : ℤ), (1 : ℤ))} : Finset Cell), (0, 0)⟩

/-- A 2 × 2 board whose row 1 is full while a landed cell sits at `(0, 0)`. -/
def cexBoard : TetrisBoard :=
  ⟨2, 2, Piece.new Shape.O, [cexPiece], true⟩

/-- A dead board used to witness death terminality. -/
def deadBoard : TetrisBoard :=
  ⟨10, 20, Piece.new Shape.O, [], false⟩

/-- An alive board whose current O-piece hugs the left wall, so both a left
shift and a rotation are rejected as out of bounds. -/
def wallBoard : TetrisBoard :=
  ⟨10, 20, Piece.new Shape.O, [], true⟩

/-- An alive board whose current O-piece rests on the floor, so the next
tick lands it. -/
def floorBoard : TetrisBoard :=
  ⟨10, 20, (Piece.new Shape.O).translate (0, 18), [], true⟩

/-! ### Basic lemmas about `Piece` operations -/

lemma rotate_positions (p : Piece) :
    p.rotate.positions = p.positions.image
      (fun c => (p.pivot.1 + p.pivot.2 - c.2, p.pivot.2 - p.pivot.1 + c.1)) := rfl

lemma rotate_pivot (p : Piece) : p.rotate.pivot = p.pivot := rfl

lemma rotate_shape (p : Piece) : p.rotate.shape = p.shape := rfl

lemma rotate_rotate_positions (p : Piece) :
    p.rotate.rotate.positions =
      p.positions.image (fun c => (2 * p.pivot.1 - c.1, 2 * p.pivot.2 - c.2)) := by
  rw [rotate_positions, rotate_pivot, rotate_positions, Finset.image_image]
  refine Finset.image_congr fun c _ => ?_
  obtain ⟨x, y⟩ := c
  simp only [Function.comp_apply, Prod.mk.injEq]
  constructor <;> ring

lemma translate_injective (d : Cell) : Function.Injective (fun pos => cellAdd pos d) := by
  intro a b hab
  simp only [cellAdd, Prod.mk.injEq] at hab
  obtain ⟨h1, h2⟩ := hab
  exact Prod.ext (by omega) (by omega)

lemma rotate_map_injective (a b : ℤ) :
    Function.Injective (fun c : Cell => (a + b - c.2, b - a + c.1)) := by
  intro c d hcd
  simp only [Prod.mk.injEq] at hcd
  obtain ⟨h1, h2⟩ := hcd
  exact Prod.ext (by omega) (by omega)

/-! ### Claim C2 -/

/-- Claim C2: for every piece (any shape, position and pivot), rotating
four times restores the exact original cell set; one rotation maps each
cell `(x, y)` to `(a + b - y, b - a + x)` for pivot `(a, b)` and keeps the
pivot unchanged. All arithmetic is integer arithmetic by construction. -/
theorem rotate_four_times_closure (p : Piece) :
    (p.rotate.rotate.rotate.rotate).positions = p.positions ∧
    p.rotate.pivot = p.pivot ∧
    p.rotate.positions = p.positions.image
      (fun c => (p.pivot.1 + p.pivot.2 - c.2, p.pivot.2 - p.pivot.1 + c.1)) := by
  refine ⟨?_, rfl, rfl⟩
  rw [rotate_rotate_positions, rotate_rotate_positions, rotate_pivot, rotate_pivot,
    Finset.image_image]
  have h : ∀ c ∈ p.positions,
      ((fun c : Cell => (2 * p.pivot.1 - c.1, 2 * p.pivot.2 - c.2)) ∘
        (fun c : Cell => (2 * p.pivot.1 - c.1, 2 * p.pivot.2 - c.2))) c = id c := by
    intro c _
    obtain ⟨x, y⟩ := c
    simp only [Function.comp_apply, id_eq, Prod.mk.injEq]
    constructor <;> ring
  rw [Finset.image_congr h, Finset.image_id]

/-! ### Claim C9 -/

/-- Claim C9: every template has exactly 4 cells, and translation and
rotation preserve the cell count of a 4-cell piece because their cell maps
are injective. -/
theorem positions_card_four :
    (∀ s : Shape, (Piece.new s).positions.card = 4) ∧
    (∀ (p : Piece) (d : Cell), p.positions.card = 4 → (p.translate d).positions.card = 4) ∧
    (∀ p : Piece, p.positions.card = 4 → p.rotate.positions.card = 4) := by
  refine ⟨fun s => by cases s <;> decide, fun p d hp => ?_, fun p hp => ?_⟩
  · show (p.positions.image (fun pos => cellAdd pos d)).card = 4
    rw [Finset.card_image_of_injective _ (translate_injective d), hp]
  · rw [rotate_positions, Finset.card_image_of_injective _
      (rotate_map_injective p.pivot.1 p.pivot.2), hp]

/-- Witness for C9 at the I template and displacement `(3, 5)`. -/
theorem positions_card_four_witness :
    (Piece.new Shape.I).positions.card = 4 ∧
    ((Piece.new Shape.I).translate (3, 5)).positions.card = 4 ∧
    (Piece.new Shape.I).rotate.positions.card = 4 :=
  ⟨positions_card_four.1 Shape.I,
    positions_card_four.2.1 (Piece.new Shape.I) (3, 5) (by decide),
    positions_card_four.2.2 (Piece.new Shape.I) (by decide)⟩

/-! ### Dead boards are frozen -/

lemma tick_of_dead (b : TetrisBoard) (s : Shape) (h : b.alive = false) : b.tick s = b := by
  simp [TetrisBoard.tick, h]

lemma shift_of_dead (b : TetrisBoard) (d : Direction) (h : b.alive = false) : b.shift d = b := by
  simp [TetrisBoard.shift, h]

lemma rotate_of_dead (b : TetrisBoard) (h : b.alive = false) : b.rotate = b := by
  simp [TetrisBoard.rotate, h]

lemma step_of_dead (b : TetrisBoard) (c : Cmd) (h : b.alive = false) : b.step c = b := by
  cases c with
  | tick s => exact tick_of_dead b s h
  | shift d => exact shift_of_dead b d h
  | rot => exact rotate_of_dead b h

/-! ### Claim C5 -/

/-- Claim C5: once `alive` is `false`, every further `tick`, `shift` or
`rotate` call returns the board completely unchanged (so `alive`,
`current_piece` and `landed_pieces` all stay as they are, and `alive` can
never change again: death is terminal). -/
theorem dead_board_frozen (b : TetrisBoard) (h : b.alive = false) (cs : List Cmd) :
    b.run cs = b := by
  induction cs with
  | nil => rfl
  | cons c cs ih =>
    show (b.step c).run cs = b
    rw [step_of_dead b c h]
    exact ih

/-- Witness for C5: a concrete dead board survives a tick, a shift and a
rotation untouched. -/
theorem dead_board_frozen_witness :
    deadBoard.run [Cmd.tick Shape.I, Cmd.shift Direction.Left, Cmd.rot] = deadBoard :=
  dead_board_frozen deadBoard rfl [Cmd.tick Shape.I, Cmd.shift Direction.Left, Cmd.rot]

/-! ### Claim C6 -/

/-- Claim C6: on an alive board, two independent conditionals hold: if the
shifted piece is out of bounds or collides, then `shift` returns the board
exactly as it was (current piece, landed pieces, dimensions and liveness
included); and if the rotated piece is out of bounds or collides, then
`rotate` returns the board exactly as it was. Each conditional stands on
its own: neither requires the other move to be illegal. -/
theorem illegal_move_unchanged (b : TetrisBoard) (d : Direction)
    (halive : b.alive = true) :
    ((b.is_out_of_bounds (b.current_piece.translate
          (match d with
            | Direction.Left => ((-1 : ℤ), (0 : ℤ))
            | Direction.Right => ((1 : ℤ), (0 : ℤ)))) = true ∨
        b.is_colliding (b.current_piece.translate
          (match d with
            | Direction.Left => ((-1 : ℤ), (0 : ℤ))
            | Direction.Right => ((1 : ℤ), (0 : ℤ)))) = true) →
      b.shift d = b) ∧
    ((b.is_out_of_bounds b.current_piece.rotate = true ∨
        b.is_colliding b.current_piece.rotate = true) →
      b.rotate = b) := by
  constructor
  · intro hs
    rcases hs with h | h <;> simp [TetrisBoard.shift, halive, h]
  · intro hr
    rcases hr with h | h <;> simp [TetrisBoard.rotate, halive, h]

/-- Witness for C6: with the O-piece hugging the left wall, a left shift is
rejected and, separately, a rotation is rejected; each no-op follows from
its own conditional alone. -/
theorem illegal_move_unchanged_witness :
    wallBoard.shift Direction.Left = wallBoard ∧ wallBoard.rotate = wallBoard :=
  ⟨(illegal_move_unchanged wallBoard Direction.Left (by decide)).1 (Or.inl (by decide)),
    (illegal_move_unchanged wallBoard Direction.Left (by decide)).2 (Or.inl (by decide))⟩

/-! ### Frame lemmas for the line-clear fold -/

lemma clear_step_frame (bd : TetrisBoard) (y : ℤ) :
    (bd.clear_step y).width = bd.width ∧ (bd.clear_step y).height = bd.height ∧
    (bd.clear_step y).current_piece = bd.current_piece ∧
    (bd.clear_step y).alive = bd.alive ∧
    (bd.clear_step y).landed_pieces.length = bd.landed_pieces.length := by
  unfold TetrisBoard.clear_step
  split
  · exact ⟨rfl, rfl, rfl, rfl, by simp [TetrisBoard.remove_line]⟩
  · exact ⟨rfl, rfl, rfl, rfl, rfl⟩

lemma foldl_clear_frame (ys : List ℤ) : ∀ b : TetrisBoard,
    (ys.foldl TetrisBoard.clear_step b).width = b.width ∧
    (ys.foldl TetrisBoard.clear_step b).height = b.height ∧
    (ys.foldl TetrisBoard.clear_step b).current_piece = b.current_piece ∧
    (ys.foldl TetrisBoard.clear_step b).alive = b.alive ∧
    (ys.foldl TetrisBoard.clear_step b).landed_pieces.length = b.landed_pieces.length := by
  induction ys with
  | nil => exact fun b => ⟨rfl, rfl, rfl, rfl, rfl⟩
  | cons y ys ih =>
    intro b
    rw [List.foldl_cons]
    obtain ⟨i1, i2, i3, i4, i5⟩ := ih (b.clear_step y)
    obtain ⟨c1, c2, c3, c4, c5⟩ := clear_step_frame b y
    exact ⟨i1.trans c1, i2.trans c2, i3.trans c3, i4.trans c4, i5.trans c5⟩

lemma remove_full_lines_frame (b : TetrisBoard) :
    b.remove_full_lines.width = b.width ∧
    b.remove_full_lines.height = b.height ∧
    b.remove_full_lines.current_piece = b.current_piece ∧
    b.remove_full_lines.alive = b.alive ∧
    b.remove_full_lines.landed_pieces.length = b.landed_pieces.length :=
  foldl_clear_frame (int_range b.height) b

lemma tick_size (b : TetrisBoard) (s : Shape) :
    (b.tick s).width = b.width ∧ (b.tick s).height = b.height := by
  unfold TetrisBoard.tick
  split
  · exact ⟨rfl, rfl⟩
  · dsimp only
    split
    · split
      · exact ⟨(remove_full_lines_frame _).1, (remove_full_lines_frame _).2.1⟩
      · exact ⟨(remove_full_lines_frame _).1, (remove_full_lines_frame _).2.1⟩
    · exact ⟨rfl, rfl⟩

lemma shift_size (b : TetrisBoard) (d : Direction) :
    (b.shift d).width = b.width ∧ (b.shift d).height = b.height := by
  unfold TetrisBoard.shift
  split
  · exact ⟨rfl, rfl⟩
  · dsimp only
    split
    · exact ⟨rfl, rfl⟩
    · exact ⟨rfl, rfl⟩

lemma rotate_size (b : TetrisBoard) :
    b.rotate.width = b.width ∧ b.rotate.height = b.height := by
  unfold TetrisBoard.rotate
  split
  · exact ⟨rfl, rfl⟩
  · dsimp only
    split
    · exact ⟨rfl, rfl⟩
    · exact ⟨rfl, rfl⟩

lemma step_size (b : TetrisBoard) (c : Cmd) :
    (b.step c).width = b.width ∧ (b.step c).height = b.height := by
  cases c with
  | tick s => exact tick_size b s
  | shift d => exact shift_size b d
  | rot => exact rotate_size b

lemma run_size (cs : List Cmd) : ∀ b : TetrisBoard,
    (b.run cs).width = b.width ∧ (b.run cs).height = b.height := by
  induction cs with
  | nil => exact fun b => ⟨rfl, rfl⟩
  | cons c cs ih =>
    intro b
    obtain ⟨i1, i2⟩ := ih (b.step c)
    obtain ⟨s1, s2⟩ := step_size b c
    exact ⟨i1.trans s1, i2.trans s2⟩

/-! ### Claim C10 -/

/-- Claim C10: no command ever changes the board dimensions:
`board_size` still returns the construction arguments `(w, h)` after any
command sequence (`get` is a pure query in this model and returns no
board, so it trivially changes nothing). -/
theorem board_size_constant (s0 : Shape) (w h : ℤ) (cs : List Cmd) :
    ((TetrisBoard.new s0 w h).run cs).board_size = (w, h) := by
  obtain ⟨h1, h2⟩ := run_size cs (TetrisBoard.new s0 w h)
  unfold TetrisBoard.board_size
  rw [h1, h2]
  rfl

/-! ### Collision bridge and the no-overlap invariant -/

lemma is_colliding_eq_false (b : TetrisBoard) (p : Piece) :
    b.is_colliding p = false ↔
      ∀ q ∈ b.landed_pieces, ∀ c ∈ q.positions, c ∉ p.positions := by
  unfold TetrisBoard.is_colliding Piece.collides_with
  rw [← Bool.not_eq_true, List.any_eq_true]
  simp only [decide_eq_true_eq, Finset.card_pos]
  constructor
  · intro hna q hq c hcq hcp
    exact hna ⟨q, hq, ⟨c, Finset.mem_inter.mpr ⟨hcq, hcp⟩⟩⟩
  · rintro hall ⟨q, hq, c, hc⟩
    obtain ⟨h1, h2⟩ := Finset.mem_inter.mp hc
    exact hall q hq c h1 h2

/-- The inductive invariant behind C4: an alive board's current piece does
not collide with the landed geometry. -/
def collision_free (b : TetrisBoard) : Prop :=
  b.alive = true → b.is_colliding b.current_piece = false

lemma tick_collision_free (b : TetrisBoard) (s : Shape) (h : collision_free b) :
    collision_free (b.tick s) := by
  unfold TetrisBoard.tick
  split
  · exact h
  · dsimp only
    split
    · split
      · intro halive
        exact absurd halive (by simp)
      · rename_i hcol
        intro _
        exact eq_false_of_ne_true hcol
    · rename_i hcond
      intro _
      have : b.is_colliding (b.current_piece.translate (0, 1)) = false := by
        cases hco : b.is_colliding (b.current_piece.translate (0, 1)) with
        | false => rfl
        | true => exact absurd (by simp [hco]) hcond
      exact this

lemma shift_collision_free (b : TetrisBoard) (d : Direction) (h : collision_free b) :
    collision_free (b.shift d) := by
  unfold TetrisBoard.shift
  split
  · exact h
  · dsimp only
    split
    · rename_i hcond
      intro _
      simp only [Bool.and_eq_true, Bool.not_eq_true'] at hcond
      exact hcond.2
    · exact h

lemma rotate_collision_free (b : TetrisBoard) (h : collision_free b) :
    collision_free b.rotate := by
  unfold TetrisBoard.rotate
  split
  · exact h
  · dsimp only
    split
    · rename_i hcond
      intro _
      simp only [Bool.and_eq_true, Bool.not_eq_true'] at hcond
      exact hcond.2
    · exact h

lemma step_collision_free (b : TetrisBoard) (c : Cmd) (h : collision_free b) :
    collision_free (b.step c) := by
  cases c with
  | tick s => exact tick_collision_free b s h
  | shift d => exact shift_collision_free b d h
  | rot => exact rotate_collision_free b h

lemma run_collision_free (cs : List Cmd) : ∀ b : TetrisBoard,
    collision_free b → collision_free (b.run cs) := by
  induction cs with
  | nil => exact fun b h => h
  | cons c cs ih => exact fun b h => ih (b.step c) (step_collision_free b c h)

lemma new_collision_free (s0 : Shape) (w h : ℤ) :
    collision_free (TetrisBoard.new s0 w h) := fun _ => rfl

/-! ### Claim C4 -/

/-- Claim C4: for every board reachable from a fresh board by any sequence
of `tick`/`shift`/`rotate` calls, while `alive` is `true` the current
piece's cell set is disjoint from the cell set of every landed piece. -/
theorem no_overlap_invariant (s0 : Shape) (w h : ℤ) (cs : List Cmd)
    (halive : ((TetrisBoard.new s0 w h).run cs).alive = true) :
    ∀ q ∈ ((TetrisBoard.new s0 w h).run cs).landed_pieces,
      ∀ c ∈ q.positions,
        c ∉ ((TetrisBoard.new s0 w h).run cs).current_piece.positions := by
  have hcf : collision_free ((TetrisBoard.new s0 w h).run cs) :=
    run_collision_free cs _ (new_collision_free s0 w h)
  exact (is_colliding_eq_false _ _).mp (hcf halive)

/-- Witness for C4: after three ticks on a 4 × 4 board the O-piece has
landed, the board is still alive, and the fresh current piece is disjoint
from the landed piece. -/
theorem no_overlap_invariant_witness :
    (((TetrisBoard.new Shape.O 4 4).run
        [Cmd.tick Shape.O, Cmd.tick Shape.O, Cmd.tick Shape.O]).alive = true) ∧
    (∀ q ∈ ((TetrisBoard.new Shape.O 4 4).run
        [Cmd.tick Shape.O, Cmd.tick Shape.O, Cmd.tick Shape.O]).landed_pieces,
      ∀ c ∈ q.positions,
        c ∉ ((TetrisBoard.new Shape.O 4 4).run
          [Cmd.tick Shape.O, Cmd.tick Shape.O, Cmd.tick Shape.O]).current_piece.positions) :=
  ⟨by decide,
    no_overlap_invariant Shape.O 4 4
      [Cmd.tick Shape.O, Cmd.tick Shape.O, Cmd.tick Shape.O] (by decide)⟩

/-! ### Bounds bridge and the bounds invariant -/

lemma is_out_of_bounds_eq_false (b : TetrisBoard) (p : Piece) :
    b.is_out_of_bounds p = false ↔ in_bounds_piece b.width b.height p := by
  unfold TetrisBoard.is_out_of_bounds in_bounds_piece
  simp

/-- The inductive invariant behind C3: the current piece is inside the
board, dead or alive. -/
def bounded_current (b : TetrisBoard) : Prop :=
  in_bounds_piece b.width b.height b.current_piece

lemma tick_bounded (b : TetrisBoard) (s : Shape)
    (hsp : spawn_fits b.width b.height) (hb : bounded_current b) :
    bounded_current (b.tick s) := by
  unfold TetrisBoard.tick
  split
  · exact hb
  · dsimp only
    split
    · unfold bounded_current
      split
      · dsimp only
        rw [(remove_full_lines_frame _).1, (remove_full_lines_frame _).2.1,
          (remove_full_lines_frame _).2.2.1]
        exact hsp s
      · rw [(remove_full_lines_frame _).1, (remove_full_lines_frame _).2.1,
          (remove_full_lines_frame _).2.2.1]
        exact hsp s
    · rename_i hcond
      have hoob : b.is_out_of_bounds (b.current_piece.translate (0, 1)) = false := by
        cases ho : b.is_out_of_bounds (b.current_piece.translate (0, 1)) with
        | false => rfl
        | true => exact absurd (by simp [ho]) hcond
      exact (is_out_of_bounds_eq_false b _).mp hoob

lemma shift_bounded (b : TetrisBoard) (d : Direction) (hb : bounded_current b) :
    bounded_current (b.shift d) := by
  unfold TetrisBoard.shift
  split
  · exact hb
  · dsimp only
    split
    · rename_i hcond
      simp only [Bool.and_eq_true, Bool.not_eq_true'] at hcond
      exact (is_out_of_bounds_eq_false b _).mp hcond.1
    · exact hb

lemma rotate_bounded (b : TetrisBoard) (hb : bounded_current b) :
    bounded_current b.rotate := by
  unfold TetrisBoard.rotate
  split
  · exact hb
  · dsimp only
    split
    · rename_i hcond
      simp only [Bool.and_eq_true, Bool.not_eq_true'] at hcond
      exact (is_out_of_bounds_eq_false b _).mp hcond.1
    · exact hb

lemma step_bounded (b : TetrisBoard) (c : Cmd)
    (hsp : spawn_fits b.width b.height) (hb : bounded_current b) :
    bounded_current (b.step c) := by
  cases c with
  | tick s => exact tick_bounded b s hsp hb
  | shift d => exact shift_bounded b d hb
  | rot => exact rotate_bounded b hb

lemma run_bounded (cs : List Cmd) : ∀ b : TetrisBoard,
    spawn_fits b.width b.height → bounded_current b → bounded_current (b.run cs) := by
  induction cs with
  | nil => exact fun b _ hb => hb
  | cons c cs ih =>
    intro b hsp hb
    refine ih (b.step c) ?_ (step_bounded b c hsp hb)
    rw [(step_size b c).1, (step_size b c).2]
    exact hsp

/-! ### Claim C3 -/

/-- Counterexample to C3 as stated: on a 4 × 3 board whose initial random
draw is the I shape, the freshly constructed board (reachable by the empty
command sequence) is alive, yet the current piece holds the cell `(4, 0)`
whose column is not below the width 4. -/
theorem bounds_invariant_counterexample :
    ((TetrisBoard.new Shape.I 4 3).run []).alive = true ∧
    ¬ (∀ c ∈ ((TetrisBoard.new Shape.I 4 3).run []).current_piece.positions,
        0 ≤ c.1 ∧ c.1 < 4 ∧ 0 ≤ c.2 ∧ c.2 < 3) := by decide

/-- Claim C3 (amended): the spawn position is never bounds-checked by the
code, so the invariant additionally requires that every spawned template
fits inside the `w × h` board (true for the default 10 × 20 board). Under
that hypothesis, every board reachable from `new w h` has, while alive,
all current-piece cells with column in `[0, w)` and row in `[0, h)`. -/
theorem current_piece_in_bounds (s0 : Shape) (w h : ℤ) (cs : List Cmd)
    (hsp : spawn_fits w h)
    (halive : ((TetrisBoard.new s0 w h).run cs).alive = true) :
    ∀ c ∈ ((TetrisBoard.new s0 w h).run cs).current_piece.positions,
      0 ≤ c.1 ∧ c.1 < w ∧ 0 ≤ c.2 ∧ c.2 < h := by
  have hb : bounded_current ((TetrisBoard.new s0 w h).run cs) :=
    run_bounded cs (TetrisBoard.new s0 w h) hsp (hsp s0)
  unfold bounded_current in_bounds_piece at hb
  rw [(run_size cs (TetrisBoard.new s0 w h)).1, (run_size cs (TetrisBoard.new s0 w h)).2] at hb
  exact hb

/-- Witness for C3: the default 10 × 20 board satisfies the spawn-fits
hypothesis, and after one tick the board is alive with the current piece
in bounds. -/
theorem current_piece_in_bounds_witness :
    spawn_fits 10 20 ∧
    ((TetrisBoard.new Shape.O 10 20).run [Cmd.tick Shape.I]).alive = true ∧
    (∀ c ∈ ((TetrisBoard.new Shape.O 10 20).run [Cmd.tick Shape.I]).current_piece.positions,
      0 ≤ c.1 ∧ c.1 < 10 ∧ 0 ≤ c.2 ∧ c.2 < 20) :=
  ⟨by decide, by decide,
    current_piece_in_bounds Shape.O 10 20 [Cmd.tick Shape.I] (by decide) (by decide)⟩

/-! ### Landed-list growth -/

lemma tick_landed_le (b : TetrisBoard) (s : Shape) :
    (b.tick s).landed_pieces.length ≤ b.landed_pieces.length + 1 := by
  unfold TetrisBoard.tick
  split
  · exact Nat.le_succ _
  · dsimp only
    split
    · split
      · dsimp only
        rw [(remove_full_lines_frame _).2.2.2.2]
        simp
      · rw [(remove_full_lines_frame _).2.2.2.2]
        simp
    · exact Nat.le_succ _

lemma shift_landed (b : TetrisBoard) (d : Direction) :
    (b.shift d).landed_pieces = b.landed_pieces := by
  unfold TetrisBoard.shift
  split
  · rfl
  · dsimp only
    split
    · rfl
    · rfl

lemma rotate_landed (b : TetrisBoard) :
    b.rotate.landed_pieces = b.landed_pieces := by
  unfold TetrisBoard.rotate
  split
  · rfl
  · dsimp only
    split
    · rfl
    · rfl

lemma run_landed_le (cs : List Cmd) : ∀ b : TetrisBoard,
    (b.run cs).landed_pieces.length ≤ b.landed_pieces.length + tick_count cs := by
  induction cs with
  | nil => exact fun b => Nat.le_refl _
  | cons c cs ih =>
    intro b
    cases c with
    | tick s =>
      have h1 : ((b.tick s).run cs).landed_pieces.length ≤
          (b.tick s).landed_pieces.length + tick_count cs := ih (b.step (Cmd.tick s))
      have h2 := tick_landed_le b s
      have h3 : tick_count (Cmd.tick s :: cs) = tick_count cs + 1 := by
        simp [tick_count]
      show ((b.tick s).run cs).landed_pieces.length ≤ _
      rw [h3]
      omega
    | shift d =>
      have h1 : ((b.shift d).run cs).landed_pieces.length ≤
          (b.shift d).landed_pieces.length + tick_count cs := ih (b.step (Cmd.shift d))
      have h3 : tick_count (Cmd.shift d :: cs) = tick_count cs := by
        simp [tick_count]
      show ((b.shift d).run cs).landed_pieces.length ≤ _
      rw [h3]
      rw [shift_landed b d] at h1
      exact h1
    | rot =>
      have h1 : (b.rotate.run cs).landed_pieces.length ≤
          b.rotate.landed_pieces.length + tick_count cs := ih (b.step Cmd.rot)
      have h3 : tick_count (Cmd.rot :: cs) = tick_count cs := by
        simp [tick_count]
      show (b.rotate.run cs).landed_pieces.length ≤ _
      rw [h3]
      rw [rotate_landed b] at h1
      exact h1

/-! ### Claim C7 -/

/-- Counterexample to C7 as stated: on a 1 × 1 board a single tick lands
the initial piece, so `landed_pieces` has one entry while
`(width * height) / 4 = 0`. -/
theorem landed_area_bound_counterexample :
    ¬ (((((TetrisBoard.new Shape.O 1 1).run [Cmd.tick Shape.O]).landed_pieces.length : ℤ)) ≤
        ((TetrisBoard.new Shape.O 1 1).run [Cmd.tick Shape.O]).width *
          ((TetrisBoard.new Shape.O 1 1).run [Cmd.tick Shape.O]).height / 4) := by decide

/-- Claim C7 (amended): the landed list is not bounded by board area / 4
(cleared pieces stay in the list as empty entries, and landings are not
bounds-checked); what does hold is that only `tick` can append to
`landed_pieces`, at most one entry per call, so the entry count after any
command sequence is at most the number of `tick` commands in it. -/
theorem landed_pieces_growth (s0 : Shape) (w h : ℤ) (cs : List Cmd) :
    ((TetrisBoard.new s0 w h).run cs).landed_pieces.length ≤ tick_count cs := by
  have h1 := run_landed_le cs (TetrisBoard.new s0 w h)
  have h2 : (TetrisBoard.new s0 w h).landed_pieces.length = 0 := rfl
  omega

/-! ### The two branches of `tick` -/

lemma landed_board_frame (b : TetrisBoard) (s : Shape) :
    (landed_board b s).current_piece = spawn_piece s b.width ∧
    (landed_board b s).alive = b.alive ∧
    (landed_board b s).landed_pieces.length = b.landed_pieces.length + 1 := by
  obtain ⟨f1, f2, f3, f4, f5⟩ := remove_full_lines_frame
    { b with
      current_piece := spawn_piece s b.width,
      landed_pieces := b.landed_pieces ++ [b.current_piece] }
  refine ⟨f3, f4, ?_⟩
  unfold landed_board
  rw [f5]
  simp

lemma tick_blocked_eq (b : TetrisBoard) (s : Shape) (halive : b.alive = true)
    (hcond : (b.is_out_of_bounds (b.current_piece.translate (0, 1)) ||
      b.is_colliding (b.current_piece.translate (0, 1))) = true) :
    b.tick s =
      if (landed_board b s).is_colliding (landed_board b s).current_piece then
        { landed_board b s with alive := false }
      else landed_board b s := by
  unfold TetrisBoard.tick landed_board
  split
  · rename_i hdead
    rw [halive] at hdead
    exact absurd hdead (by simp)
  · dsimp only
    split
    · rfl
    · rename_i hnb
      exact absurd hcond hnb

lemma tick_advance_eq (b : TetrisBoard) (s : Shape) (halive : b.alive = true)
    (hfree : (b.is_out_of_bounds (b.current_piece.translate (0, 1)) ||
      b.is_colliding (b.current_piece.translate (0, 1))) = false) :
    b.tick s = { b with current_piece := b.current_piece.translate (0, 1) } := by
  unfold TetrisBoard.tick
  split
  · rename_i hdead
    rw [halive] at hdead
    exact absurd hdead (by simp)
  · dsimp only
    split
    · rename_i hb
      rw [hfree] at hb
      exact absurd hb (by simp)
    · rfl

/-! ### Claim C8 -/

/-- Claim C8: on an alive board, when the advanced piece is out of bounds
or collides, `tick` appends exactly the un-advanced current piece to
`landed_pieces`, installs the spawned piece `spawn_piece s width` as the
current piece, runs `remove_full_lines` (the combination is
`landed_board`), and ends dead exactly when the spawned piece collides
with the post-clear landed geometry; otherwise `tick` only advances the
current piece one row and `landed_pieces` is untouched. -/
theorem tick_lands_blocked_piece (b : TetrisBoard) (s : Shape) (halive : b.alive = true) :
    ((b.is_out_of_bounds (b.current_piece.translate (0, 1)) = true ∨
        b.is_colliding (b.current_piece.translate (0, 1)) = true) →
      (b.tick s).landed_pieces = (landed_board b s).landed_pieces ∧
      (b.tick s).landed_pieces.length = b.landed_pieces.length + 1 ∧
      (b.tick s).current_piece = spawn_piece s b.width ∧
      ((b.tick s).alive = false ↔
        (landed_board b s).is_colliding (spawn_piece s b.width) = true)) ∧
    (b.is_out_of_bounds (b.current_piece.translate (0, 1)) = false ∧
        b.is_colliding (b.current_piece.translate (0, 1)) = false →
      b.tick s = { b with current_piece := b.current_piece.translate (0, 1) } ∧
      (b.tick s).landed_pieces = b.landed_pieces) := by
  constructor
  · intro hblk
    have hcond : (b.is_out_of_bounds (b.current_piece.translate (0, 1)) ||
        b.is_colliding (b.current_piece.translate (0, 1))) = true := by
      rcases hblk with hA | hA <;> simp [hA]
    obtain ⟨hcur, hal, hlen⟩ := landed_board_frame b s
    rw [tick_blocked_eq b s halive hcond]
    cases hX : (landed_board b s).is_colliding (landed_board b s).current_piece with
    | true =>
      rw [if_pos rfl]
      dsimp only
      refine ⟨rfl, ?_, hcur, ?_⟩
      · rw [hlen]
      · rw [← hcur]
        exact ⟨fun _ => hX, fun _ => rfl⟩
    | false =>
      rw [if_neg (by simp)]
      refine ⟨rfl, ?_, hcur, ?_⟩
      · rw [hlen]
      · rw [← hcur]
        constructor
        · intro hAl
          rw [hal] at hAl
          rw [halive] at hAl
          exact absurd hAl (by simp)
        · intro hco
          rw [hX] at hco
          exact absurd hco (by simp)
  · rintro ⟨h1, h2⟩
    refine ⟨tick_advance_eq b s halive (by simp [h1, h2]), ?_⟩
    rw [tick_advance_eq b s halive (by simp [h1, h2])]

/-- Witness for C8: the O-piece resting on the floor of a fresh 10 × 20
board is blocked, lands, and the board stays alive with the spawned
I-piece installed. -/
theorem tick_lands_blocked_piece_witness :
    (floorBoard.tick Shape.I).landed_pieces = (landed_board floorBoard Shape.I).landed_pieces ∧
    (floorBoard.tick Shape.I).landed_pieces.length = floorBoard.landed_pieces.length + 1 ∧
    (floorBoard.tick Shape.I).current_piece = spawn_piece Shape.I floorBoard.width ∧
    ((floorBoard.tick Shape.I).alive = false ↔
      (landed_board floorBoard Shape.I).is_colliding
        (spawn_piece Shape.I floorBoard.width) = true) :=
  (tick_lands_blocked_piece floorBoard Shape.I (by decide)).1 (Or.inl (by decide))

/-! ### Row-clearing arithmetic -/

lemma piece_eq (p q : Piece) (h1 : p.shape = q.shape) (h2 : p.positions = q.positions)
    (h3 : p.pivot = q.pivot) : p = q := by
  cases p
  cases q
  simp_all

lemma count_gt_cons (y : ℤ) (ys : List ℤ) (r : ℤ) :
    count_gt (y :: ys) r = (if r < y then 1 else 0) + count_gt ys r := by
  unfold count_gt
  rw [List.filter_cons]
  by_cases h : r < y
  · simp [h, Nat.add_comm]
  · simp [h]

lemma count_gt_all (ys : List ℤ) (r : ℤ) (h : ∀ z ∈ ys, r < z) :
    count_gt ys r = ys.length := by
  unfold count_gt
  rw [List.filter_eq_self.mpr (fun a ha => by simpa using h a ha)]

lemma remove_cell_positions (p : Piece) (y : ℤ) :
    (p.remove_cell y).positions =
      (p.positions.filter (fun pos => pos.2 ≠ y)).image
        (fun c => if c.2 ≥ y then c else (c.1, c.2 + 1)) := rfl

lemma clear_rows_piece_shape_pivot (ys : List ℤ) : ∀ p : Piece,
    (clear_rows_piece ys p).shape = p.shape ∧ (clear_rows_piece ys p).pivot = p.pivot := by
  induction ys with
  | nil => exact fun p => ⟨rfl, rfl⟩
  | cons y ys ih =>
    intro p
    obtain ⟨h1, h2⟩ := ih (p.remove_cell y)
    exact ⟨h1, h2⟩

/-- Clearing an ascending list of rows from one piece keeps exactly the
cells on no cleared row, each moved down by the number of cleared rows
strictly below it. -/
lemma clear_rows_piece_positions (ys : List ℤ) : ∀ p : Piece, ys.Pairwise (· < ·) →
    (clear_rows_piece ys p).positions =
      (p.positions.filter (fun c => c.2 ∉ ys)).image (shift_cell ys) := by
  induction ys with
  | nil =>
    intro p _
    have h1 : p.positions.filter (fun c => c.2 ∉ ([] : List ℤ)) = p.positions :=
      Finset.filter_true_of_mem (fun c _ => by simp)
    have h2 : ∀ c ∈ p.positions, shift_cell [] c = id c := by
      intro c _
      unfold shift_cell count_gt
      simp
    show p.positions = _
    rw [h1, Finset.image_congr h2, Finset.image_id]
  | cons y ys ih =>
    intro p hp
    rw [List.pairwise_cons] at hp
    obtain ⟨hy, hp'⟩ := hp
    show (clear_rows_piece ys (p.remove_cell y)).positions = _
    rw [ih (p.remove_cell y) hp', remove_cell_positions, Finset.filter_image,
      Finset.filter_filter, Finset.image_image]
    have hfil : p.positions.filter
        (fun c => c.2 ≠ y ∧ (if c.2 ≥ y then c else (c.1, c.2 + 1)).2 ∉ ys) =
        p.positions.filter (fun c => c.2 ∉ y :: ys) := by
      apply Finset.filter_congr
      intro c _
      by_cases h1 : c.2 = y
      · simp [h1]
      · by_cases h2 : c.2 ≥ y
        · rw [if_pos h2]
          constructor
          · rintro ⟨hne, hn⟩ hin
            rcases List.mem_cons.mp hin with he | hin2
            · exact hne he
            · exact hn hin2
          · intro hn
            exact ⟨h1, fun hin => hn (List.mem_cons_of_mem y hin)⟩
        · have hlt : c.2 < y := lt_of_not_ge h2
          rw [if_neg h2]
          constructor
          · rintro ⟨hne, hnotin⟩ hin
            rcases List.mem_cons.mp hin with he | hin2
            · exact hne he
            · exact absurd (hy _ hin2) (by omega)
          · intro hnotin
            exact ⟨h1, fun hin => absurd (hy _ hin) (by omega)⟩
    rw [hfil]
    apply Finset.image_congr
    intro c hc
    have hc' := Finset.mem_filter.mp hc
    have h1 : c.2 ≠ y := by
      intro he
      exact absurd (by rw [he]; exact List.mem_cons_self y ys) hc'.2
    by_cases h2 : c.2 ≥ y
    · show shift_cell ys (if c.2 ≥ y then c else (c.1, c.2 + 1)) = shift_cell (y :: ys) c
      rw [if_pos h2]
      unfold shift_cell
      rw [count_gt_cons, if_neg (by omega)]
      simp
    · have hlt : c.2 < y := lt_of_not_ge h2
      show shift_cell ys (if c.2 ≥ y then c else (c.1, c.2 + 1)) = shift_cell (y :: ys) c
      rw [if_neg h2]
      unfold shift_cell
      rw [count_gt_cons, if_pos hlt,
        count_gt_all ys (((c.1, c.2 + 1) : Cell).2) (fun z hz => by have := hy z hz; omega),
        count_gt_all ys c.2 (fun z hz => by have := hy z hz; omega)]
      simp [Prod.ext_iff]
      ring

/-! ### Rows below the scan point are untouched -/

lemma remove_cell_filter_high (p : Piece) (y y' : ℤ) (h : y < y') :
    (p.remove_cell y).positions.filter (fun c => c.2 = y') =
      p.positions.filter (fun c => c.2 = y') := by
  rw [remove_cell_positions, Finset.filter_image, Finset.filter_filter]
  have hfil : p.positions.filter
      (fun c => c.2 ≠ y ∧ (if c.2 ≥ y then c else (c.1, c.2 + 1)).2 = y') =
      p.positions.filter (fun c => c.2 = y') := by
    apply Finset.filter_congr
    intro c _
    by_cases h2 : c.2 ≥ y
    · rw [if_pos h2]
      constructor
      · rintro ⟨_, hg⟩
        exact hg
      · intro hg
        exact ⟨by omega, hg⟩
    · rw [if_neg h2]
      constructor
      · rintro ⟨_, hg⟩
        have : c.2 + 1 = y' := hg
        omega
      · intro hg
        omega
  rw [hfil]
  have himg : ∀ c ∈ p.positions.filter (fun c => c.2 = y'),
      (fun c : Cell => if c.2 ≥ y then c else (c.1, c.2 + 1)) c = id c := by
    intro c hc
    have hcy := (Finset.mem_filter.mp hc).2
    show (if c.2 ≥ y then c else (c.1, c.2 + 1)) = c
    rw [if_pos (by omega)]
  rw [Finset.image_congr himg, Finset.image_id]

lemma cells_of_cons (p : Piece) (l : List Piece) :
    cells_of (p :: l) = p.positions ∪ cells_of l := rfl

lemma cells_of_map_filter_high (l : List Piece) (y y' : ℤ) (h : y < y') :
    (cells_of (l.map (fun p => p.remove_cell y))).filter (fun c => c.2 = y') =
      (cells_of l).filter (fun c => c.2 = y') := by
  induction l with
  | nil => rfl
  | cons p l ih =>
    rw [List.map_cons, cells_of_cons, cells_of_cons, Finset.filter_union, Finset.filter_union,
      ih, remove_cell_filter_high p y y' h]

lemma remove_line_is_line_full_high (bd : TetrisBoard) (y y' : ℤ) (h : y < y') :
    (bd.remove_line y).is_line_full y' = bd.is_line_full y' := by
  unfold TetrisBoard.is_line_full TetrisBoard.landed_cells TetrisBoard.remove_line
  dsimp only
  rw [cells_of_map_filter_high bd.landed_pieces y y' h]

lemma clear_step_is_line_full_high (bd : TetrisBoard) (y y' : ℤ) (h : y < y') :
    (bd.clear_step y).is_line_full y' = bd.is_line_full y' := by
  unfold TetrisBoard.clear_step
  split
  · exact remove_line_is_line_full_high bd y y' h
  · rfl

/-! ### The scan clears exactly the rows that were full at entry -/

lemma foldl_clear_eq (ys : List ℤ) : ∀ bd : TetrisBoard, ys.Pairwise (· < ·) →
    ys.foldl TetrisBoard.clear_step bd =
      { bd with landed_pieces :=
          bd.landed_pieces.map (clear_rows_piece (ys.filter (fun y => bd.is_line_full y))) } := by
  induction ys with
  | nil =>
    intro bd _
    have h1 : clear_rows_piece ([] : List ℤ) = fun p => p := funext fun p => rfl
    show bd = _
    rw [List.filter_nil, h1, List.map_id']
  | cons y ys ih =>
    intro bd hp
    rw [List.pairwise_cons] at hp
    obtain ⟨hy, hp'⟩ := hp
    rw [List.foldl_cons, ih (bd.clear_step y) hp']
    have hfull : ys.filter (fun z => (bd.clear_step y).is_line_full z) =
        ys.filter (fun z => bd.is_line_full z) :=
      List.filter_congr (fun z hz => clear_step_is_line_full_high bd y z (hy z hz))
    rw [hfull]
    by_cases hfy : bd.is_line_full y = true
    · have h1 : bd.clear_step y = bd.remove_line y := by
        unfold TetrisBoard.clear_step
        rw [if_pos hfy]
      rw [List.filter_cons, if_pos hfy, h1]
      simp only [TetrisBoard.remove_line]
      rw [List.map_map]
      rfl
    · have h1 : bd.clear_step y = bd := by
        unfold TetrisBoard.clear_step
        rw [if_neg hfy]
      rw [List.filter_cons, if_neg hfy, h1]

lemma int_range_pairwise (n : ℤ) : (int_range n).Pairwise (· < ·) := by
  unfold int_range
  rw [List.pairwise_map]
  refine (List.pairwise_lt_range n.toNat).imp ?_
  intro a b h
  show Int.ofNat a < Int.ofNat b
  exact Int.ofNat_lt.mpr h

lemma full_rows_pairwise (b : TetrisBoard) : (full_rows b).Pairwise (· < ·) :=
  (int_range_pairwise b.height).filter _

lemma remove_full_lines_eq (b : TetrisBoard) :
    b.remove_full_lines =
      { b with landed_pieces := b.landed_pieces.map (clear_rows_piece (full_rows b)) } := by
  unfold TetrisBoard.remove_full_lines full_rows
  exact foldl_clear_eq (int_range b.height) b (int_range_pairwise b.height)

lemma cells_of_map_transform (ys : List ℤ) (hys : ys.Pairwise (· < ·)) :
    ∀ l : List Piece,
      cells_of (l.map (clear_rows_piece ys)) =
        ((cells_of l).filter (fun c => c.2 ∉ ys)).image (shift_cell ys) := by
  intro l
  induction l with
  | nil => simp [cells_of]
  | cons p l ih =>
    rw [List.map_cons, cells_of_cons, cells_of_cons, Finset.filter_union, Finset.image_union,
      ih, clear_rows_piece_positions ys p hys]

/-! ### Claim C1 -/

/-- Counterexample to C1 as stated: on `cexBoard` row 1 is full (both
columns of the width-2 board are landed), yet after `remove_full_lines()`
the formerly-full row 1 is not empty: the landed cell that was at `(0, 0)`
moved down into it. -/
theorem remove_full_lines_counterexample :
    cexBoard.is_line_full 1 = true ∧
    (cexBoard.remove_full_lines).landed_cells.filter (fun c => c.2 = 1) ≠ ∅ := by decide

/-- Claim C1 (amended): `remove_full_lines()` removes every landed cell
lying on a row that was full before the call, and moves every other landed
cell at `(x, r)` to `(x, r + k)` where `k` is the number of full rows
strictly below it (row index `> r`); in particular cells below every full
row are unchanged, and this holds for any number of simultaneously full
rows. The formerly-full rows themselves need not end empty: cells from
above shift into them. -/
theorem remove_full_lines_characterization (b : TetrisBoard) :
    (b.remove_full_lines).landed_pieces =
      b.landed_pieces.map (fun p =>
        (⟨p.shape,
          (p.positions.filter (fun c => c.2 ∉ full_rows b)).image (shift_cell (full_rows b)),
          p.pivot⟩ : Piece)) ∧
    (b.remove_full_lines).landed_cells =
      (b.landed_cells.filter (fun c => c.2 ∉ full_rows b)).image (shift_cell (full_rows b)) := by
  constructor
  · rw [remove_full_lines_eq]
    dsimp only
    apply List.map_congr_left
    intro p _
    refine piece_eq _ _ (clear_rows_piece_shape_pivot (full_rows b) p).1 ?_
      (clear_rows_piece_shape_pivot (full_rows b) p).2
    exact clear_rows_piece_positions (full_rows b) p (full_rows_pairwise b)
  · rw [remove_full_lines_eq]
    unfold TetrisBoard.landed_cells
    dsimp only
    exact cells_of_map_transform (full_rows b) (full_rows_pairwise b) b.landed_pieces

end TetrisTui

